import Mathlib

/-!
Verification of the multiplexed connection loop of `src/server.py`.

The `server` function of the source is a single-threaded `select`-based
event loop.  We embed it shallowly: the loop state (`inputs`, `outputs`,
`messages`) becomes a `ServerState`; each iteration of the `while` loop
consumes one `TickEnv` describing what the operating system reported
(`select` results together with the data `recv` returned, the socket an
`accept` produced, and whether each `send` succeeded).  Exceptions are
modelled with the `PassOut` outcome type: `.ok` continues the loop,
`.stop` is the `StopIteration` / `KeyboardInterrupt` shutdown path that
drains and returns `True`, and `.exc` is an unhandled exception caught by
the outermost handler, which returns `False`.
-/

abbrev Sock := Nat
abbrev Chunk := String

/-- `errno.EAGAIN` on the reference platform. -/
def EAGAIN : Nat := 11

/-- `errno.EINTR` on the reference platform. -/
def EINTR : Nat := 4

/-- The literal administrative shutdown command checked at line 71. -/
def stopCommand : Chunk := "stop"

/-- The notice enqueued at line 72 of the source. -/
def shutdownNotice : Chunk := "Shutdown request received"

/-- Loop state: `inputs` (readable-interest list, listener included),
`outputs` (writable-interest list) and `messages` (the per-connection
outbound queues, a dict keyed by socket). -/
structure ServerState where
  inputs : List Sock
  outputs : List Sock
  messages : List (Sock × List Chunk)
deriving Repr, DecidableEq

/-- Observable side effects of a run: sockets accepted, sockets set
non-blocking, chunks passed to `send` (in call order) and sockets closed. -/
structure Trace where
  accepted : List Sock
  nonblk : List Sock
  sent : List (Sock × Chunk)
  closed : List Sock
deriving Repr, DecidableEq

def emptyTrace : Trace := ⟨[], [], [], []⟩

/-- Dictionary lookup, `messages[s]` (first matching key). -/
def dictLookup : List (Sock × List Chunk) → Sock → Option (List Chunk)
  | [], _ => none
  | (k, v) :: rest, s => if k = s then some v else dictLookup rest s

/-- Dictionary membership, `s in messages`. -/
def dictMem (m : List (Sock × List Chunk)) (s : Sock) : Bool :=
  (dictLookup m s).isSome

/-- Dictionary update, `messages[s] = v` (overwrite or append). -/
def dictSet : List (Sock × List Chunk) → Sock → List Chunk → List (Sock × List Chunk)
  | [], s, v => [(s, v)]
  | (k, w) :: rest, s, v =>
    if k = s then (k, v) :: rest else (k, w) :: dictSet rest s v

/-- Dictionary deletion, `del messages[s]` (removes the first matching
entry; keys of reachable states are unique). -/
def dictDel : List (Sock × List Chunk) → Sock → List (Sock × List Chunk)
  | [], _ => []
  | (k, w) :: rest, s => if k = s then rest else (k, w) :: dictDel rest s

/-- Python `list.remove`: delete the first occurrence, `ValueError`
(modelled as `none`) when the element is absent. -/
def pyRemove (l : List Sock) (s : Sock) : Option (List Sock) :=
  if s ∈ l then some (l.erase s) else none

/-- One readiness report of `select` for the read set: either the
listening socket is ready (the environment supplies the socket `accept`
returns) or a connected socket is ready (the environment supplies the
payload `recv` returns; `""` is end-of-file). -/
inductive ReadEv
  | acc (a : Sock)
  | dat (s : Sock) (d : Chunk)
deriving Repr, DecidableEq

/-- One iteration's environment: a successful poll (read events, write
events tagged with whether `send` succeeds, error events), a poll that
raised with the given errno, or an external `KeyboardInterrupt`. -/
inductive TickEnv
  | poll (revs : List ReadEv) (wevs : List (Sock × Bool)) (eevs : List Sock)
  | pollErr (code : Nat)
  | interrupt
deriving Repr, DecidableEq

/-- Outcome of a handler or of one whole iteration: continue, the
`StopIteration`/`KeyboardInterrupt` shutdown path, or an unhandled
exception. -/
inductive PassOut
  | ok (st : ServerState) (tr : Trace)
  | stop (st : ServerState) (tr : Trace)
  | exc
deriving Repr, DecidableEq

def PassOut.andThen (p : PassOut) (f : ServerState → Trace → PassOut) : PassOut :=
  match p with
  | .ok st tr => f st tr
  | out => out

/-- Readable-event handler, lines 56-86 of the source.  The listener
branch accepts one connection, marks it non-blocking and registers it
with a fresh empty queue.  The client branch: on data, detect `stop`
(enqueue the notice and raise `StopIteration`) or append the chunk to the
queue and join the writable-interest list; on end-of-file, tear the
connection down (a failing `list.remove` or `del` is an unhandled
exception). -/
def handleRead (L : Sock) (st : ServerState) (tr : Trace) : ReadEv → PassOut
  | .acc a =>
    .ok { st with inputs := st.inputs ++ [a], messages := dictSet st.messages a [] }
       { tr with accepted := tr.accepted ++ [a], nonblk := tr.nonblk ++ [a] }
  | .dat s d =>
    if d = "" then
      let outs := match pyRemove st.outputs s with
                  | some o => o
                  | none => st.outputs
      match pyRemove st.inputs s with
      | none => .exc
      | some ins =>
        if dictMem st.messages s then
          .ok { inputs := ins, outputs := outs, messages := dictDel st.messages s }
             { tr with closed := tr.closed ++ [s] }
        else .exc
    else
      match dictLookup st.messages s with
      | none => .exc
      | some q =>
        if d = stopCommand then
          .stop { st with messages := dictSet st.messages s (q ++ [shutdownNotice]) } tr
        else
          .ok { st with
                outputs := if s ∈ st.outputs then st.outputs else st.outputs ++ [s],
                messages := dictSet st.messages s (q ++ [d]) } tr

/-- Writable-event handler, lines 88-98: skip sockets without a registry
entry, pop and send the oldest chunk, or on an empty queue leave the
writable-interest list.  A failing `send` is an unhandled exception. -/
def handleWrite (st : ServerState) (tr : Trace) : Sock × Bool → PassOut
  | (s, sok) =>
    match dictLookup st.messages s with
    | none => .ok st tr
    | some [] =>
      match pyRemove st.outputs s with
      | none => .exc
      | some outs => .ok { st with outputs := outs } tr
    | some (m :: rest) =>
      if sok then
        .ok { st with messages := dictSet st.messages s rest }
           { tr with sent := tr.sent ++ [(s, m)] }
      else .exc

/-- Error-event handler, lines 100-107: tear the connection down.  On a
socket already torn down, `getpeername` / `inputs.remove` raises, an
unhandled exception. -/
def handleError (st : ServerState) (tr : Trace) (s : Sock) : PassOut :=
  let outs := match pyRemove st.outputs s with
              | some o => o
              | none => st.outputs
  match pyRemove st.inputs s with
  | none => .exc
  | some ins =>
    if dictMem st.messages s then
      .ok { inputs := ins, outputs := outs, messages := dictDel st.messages s }
         { tr with closed := tr.closed ++ [s] }
    else .exc

def readsPass (L : Sock) : ServerState → Trace → List ReadEv → PassOut
  | st, tr, [] => .ok st tr
  | st, tr, e :: es =>
    match handleRead L st tr e with
    | .ok st' tr' => readsPass L st' tr' es
    | out => out

def writesPass : ServerState → Trace → List (Sock × Bool) → PassOut
  | st, tr, [] => .ok st tr
  | st, tr, w :: ws =>
    match handleWrite st tr w with
    | .ok st' tr' => writesPass st' tr' ws
    | out => out

def errorsPass : ServerState → Trace → List Sock → PassOut
  | st, tr, [] => .ok st tr
  | st, tr, s :: ss =>
    match handleError st tr s with
    | .ok st' tr' => errorsPass st' tr' ss
    | out => out

/-- One iteration of the `while` loop (lines 48-113): the three event
passes in source order, the transient/fatal split on a raising poll, and
the `KeyboardInterrupt` shutdown path. -/
def tick (L : Sock) (st : ServerState) (tr : Trace) : TickEnv → PassOut
  | .interrupt => .stop st tr
  | .pollErr n => if n = EAGAIN ∨ n = EINTR then .ok st tr else .exc
  | .poll revs wevs eevs =>
    (readsPass L st tr revs).andThen fun st1 tr1 =>
      (writesPass st1 tr1 wevs).andThen fun st2 tr2 =>
        errorsPass st2 tr2 eevs

/-- Shutdown drain of one queue (lines 121-126): pop and send until the
queue is empty or a `send` raises; returns the chunks passed to `send`
and the chunks left behind. -/
def drainStep (ok : Nat → Bool) (k : Nat) : List Chunk → List Chunk × List Chunk
  | [] => ([], [])
  | m :: rest =>
    if ok k then
      let p := drainStep ok (k + 1) rest
      (m :: p.1, p.2)
    else ([m], rest)

/-- Shutdown drain (lines 116-131): one linear pass over the live
sockets; for each non-listener socket flush its queue best-effort
(`socket.error` swallowed) and close it unconditionally (`finally`). -/
def drainAll (L : Sock) (sok : Sock → Nat → Bool) :
    List Sock → ServerState → Trace → Trace
  | [], _, tr => tr
  | c :: cs, st, tr =>
    if c = L then drainAll L sok cs st tr
    else
      match dictLookup st.messages c with
      | none => drainAll L sok cs st { tr with closed := tr.closed ++ [c] }
      | some q =>
        let p := drainStep (sok c) 0 q
        drainAll L sok cs { st with messages := dictSet st.messages c p.2 }
          { tr with sent := tr.sent ++ p.1.map (fun m => (c, m)),
                    closed := tr.closed ++ [c] }

/-- Result of running the loop on a finite tick schedule: still running,
or returned with the given boolean. -/
inductive RunResult
  | running (st : ServerState) (tr : Trace)
  | done (ret : Bool) (tr : Trace)
deriving Repr, DecidableEq

/-- The `while isRunning` loop driven by a finite schedule of tick
environments. -/
def runTicks (L : Sock) (sok : Sock → Nat → Bool) :
    ServerState → Trace → List TickEnv → RunResult
  | st, tr, [] => .running st tr
  | st, tr, t :: ts =>
    match tick L st tr t with
    | .ok st' tr' => runTicks L sok st' tr' ts
    | .stop st' tr' => .done true (drainAll L sok st'.inputs st' tr')
    | .exc => .done false tr

/-- The whole `server` function (lines 25-138): a failing `listen`
returns `False` before any poll; otherwise the loop starts from
`inputs = [server]`, `outputs = []`, `messages = {}`. -/
def serverRun (L : Sock) (listenOk : Bool) (sok : Sock → Nat → Bool)
    (ticks : List TickEnv) : RunResult :=
  if listenOk then runTicks L sok ⟨[L], [], []⟩ emptyTrace ticks
  else .done false emptyTrace

/-! ## Observables and dictionary lemmas -/

/-- The chunks of a send log that went to connection `c`, in call order. -/
def sentOf (c : Sock) (l : List (Sock × Chunk)) : List Chunk :=
  l.filterMap (fun p => if p.1 = c then some p.2 else none)

/-- The chunks passed to `send` on connection `c`, in call order. -/
def sentTo (c : Sock) (tr : Trace) : List Chunk :=
  sentOf c tr.sent

theorem sentOf_append (c : Sock) (l1 l2 : List (Sock × Chunk)) :
    sentOf c (l1 ++ l2) = sentOf c l1 ++ sentOf c l2 :=
  List.filterMap_append l1 l2 _

theorem sentOf_map_self (c : Sock) (q : List Chunk) :
    sentOf c (q.map fun m => (c, m)) = q := by
  simp [sentOf, List.filterMap_map, Function.comp_def]

theorem sentOf_map_other (c s : Sock) (h : s ≠ c) (q : List Chunk) :
    sentOf c (q.map fun m => (s, m)) = [] := by
  simp [sentOf, List.filterMap_map, Function.comp_def, h]

theorem sentOf_single_self (c : Sock) (m : Chunk) : sentOf c [(c, m)] = [m] := by
  simp [sentOf]

theorem sentOf_single_other (c s : Sock) (h : s ≠ c) (m : Chunk) :
    sentOf c [(s, m)] = [] := by
  simp [sentOf, h]

/-- The current outbound queue of connection `c` (empty when absent). -/
def queueOf (c : Sock) (st : ServerState) : List Chunk :=
  (dictLookup st.messages c).getD []

theorem dictLookup_set_self : ∀ (m : List (Sock × List Chunk)) (s : Sock) (v : List Chunk),
    dictLookup (dictSet m s v) s = some v
  | [], s, v => by simp [dictSet, dictLookup]
  | (k, w) :: rest, s, v => by
    by_cases h : k = s
    · simp [dictSet, dictLookup, h]
    · simp [dictSet, dictLookup, h, dictLookup_set_self rest s v]

theorem dictLookup_set_other : ∀ (m : List (Sock × List Chunk)) (s t : Sock) (v : List Chunk),
    s ≠ t → dictLookup (dictSet m s v) t = dictLookup m t
  | [], s, t, v, h => by simp [dictSet, dictLookup, h]
  | (k, w) :: rest, s, t, v, h => by
    by_cases hk : k = s
    · subst hk
      simp [dictSet, dictLookup, h]
    · simp [dictSet, dictLookup, hk, dictLookup_set_other rest s t v h]

theorem dictLookup_del_other : ∀ (m : List (Sock × List Chunk)) (s t : Sock),
    s ≠ t → dictLookup (dictDel m s) t = dictLookup m t
  | [], _, _, _ => rfl
  | (k, w) :: rest, s, t, h => by
    by_cases hk : k = s
    · subst hk
      simp [dictDel, dictLookup, h]
    · by_cases ht : k = t
      · simp [dictDel, dictLookup, hk, ht, h.symm]
      · simp [dictDel, dictLookup, hk, ht, dictLookup_del_other rest s t h]

theorem dictLookup_eq_none_iff : ∀ (m : List (Sock × List Chunk)) (s : Sock),
    dictLookup m s = none ↔ s ∉ m.map Prod.fst
  | [], s => by simp [dictLookup]
  | (k, w) :: rest, s => by
    by_cases hk : k = s
    · simp [dictLookup, hk]
    · simp [dictLookup, hk, dictLookup_eq_none_iff rest s, Ne.symm hk]

theorem dictMem_iff_mem_keys (m : List (Sock × List Chunk)) (s : Sock) :
    dictMem m s = true ↔ s ∈ m.map Prod.fst := by
  rw [dictMem, Option.isSome_iff_ne_none, ne_eq, dictLookup_eq_none_iff, not_not]

theorem keys_dictSet_of_mem (m : List (Sock × List Chunk)) (s : Sock) (v : List Chunk)
    (h : dictMem m s = true) :
    (dictSet m s v).map Prod.fst = m.map Prod.fst := by
  induction m with
  | nil => simp [dictMem, dictLookup] at h
  | cons kv rest ih =>
    obtain ⟨k, w⟩ := kv
    by_cases hk : k = s
    · simp [dictSet, hk]
    · have h' : dictMem rest s = true := by
        simpa [dictMem, dictLookup, hk] using h
      simp [dictSet, hk, ih h']

theorem keys_dictSet_of_not_mem (m : List (Sock × List Chunk)) (s : Sock) (v : List Chunk)
    (h : dictMem m s = false) :
    (dictSet m s v).map Prod.fst = m.map Prod.fst ++ [s] := by
  induction m with
  | nil => simp [dictSet]
  | cons kv rest ih =>
    obtain ⟨k, w⟩ := kv
    by_cases hk : k = s
    · subst hk
      simp [dictMem, dictLookup] at h
    · have h' : dictMem rest s = false := by
        simpa [dictMem, dictLookup, hk] using h
      simp [dictSet, hk, ih h']

theorem keys_dictDel (m : List (Sock × List Chunk)) (s : Sock) :
    (dictDel m s).map Prod.fst = (m.map Prod.fst).erase s := by
  induction m with
  | nil => simp [dictDel]
  | cons kv rest ih =>
    obtain ⟨k, w⟩ := kv
    by_cases hk : k = s
    · subst hk
      simp [dictDel, List.erase_cons_head]
    · simp [dictDel, hk, ih, List.erase_cons_tail, Ne.symm hk]

theorem dictLookup_del_self (m : List (Sock × List Chunk)) (s : Sock)
    (hnd : (m.map Prod.fst).Nodup) :
    dictLookup (dictDel m s) s = none := by
  rw [dictLookup_eq_none_iff, keys_dictDel]
  exact hnd.not_mem_erase

theorem pyRemove_eq_none_iff (l : List Sock) (s : Sock) :
    pyRemove l s = none ↔ s ∉ l := by
  by_cases h : s ∈ l <;> simp [pyRemove, h]

theorem pyRemove_eq_some (l l' : List Sock) (s : Sock) (h : pyRemove l s = some l') :
    s ∈ l ∧ l' = l.erase s := by
  by_cases hm : s ∈ l
  · simp [pyRemove, hm] at h
    exact ⟨hm, h.symm⟩
  · simp [pyRemove, hm] at h

/-! ## C7, C8, C10, C9, C2 -/

/-- C7: if the listening socket cannot be transitioned to listening mode
(the `listen` call raises, lines 32-36), the loop function returns
`False` immediately, before any poll; the result trace is empty, so no
connection is ever accepted and nothing enters the registry. -/
theorem listen_failure_returns_false (L : Sock) (sok : Sock → Nat → Bool)
    (ticks : List TickEnv) :
    serverRun L false sok ticks = .done false emptyTrace ∧
    emptyTrace.accepted = [] ∧ emptyTrace.sent = [] :=
  ⟨rfl, rfl, rfl⟩

/-- C8: a readable event on the listener (lines 56-64) accepts exactly one
connection: the accepted socket is recorded as set non-blocking, appended
to the readable-interest list, registered with an empty queue, and the
writable-interest list is unchanged. -/
theorem accept_event_registers (L a : Sock) (st : ServerState) (tr : Trace) :
    handleRead L st tr (.acc a) =
      .ok { st with inputs := st.inputs ++ [a], messages := dictSet st.messages a [] }
         { tr with accepted := tr.accepted ++ [a], nonblk := tr.nonblk ++ [a] } ∧
    dictLookup (dictSet st.messages a []) a = some [] ∧
    a ∈ st.inputs ++ [a] :=
  ⟨rfl, dictLookup_set_self _ _ _, by simp⟩

/-- C10: a socket reported writable that has no registry entry (deleted
earlier in the same iteration's readable pass) is skipped by the guard at
lines 88-90: no send is attempted, no exception is raised, and state and
trace are unchanged. -/
theorem stale_writable_skipped (st : ServerState) (tr : Trace) (s : Sock) (b : Bool)
    (h : dictLookup st.messages s = none) :
    handleWrite st tr (s, b) = .ok st tr := by
  simp [handleWrite, h]

theorem stale_writable_skipped_witness :
    dictLookup (ServerState.mk [0] [] []).messages 1 = none ∧
    handleWrite ⟨[0], [], []⟩ emptyTrace (1, true) = .ok ⟨[0], [], []⟩ emptyTrace :=
  ⟨rfl, stale_writable_skipped ⟨[0], [], []⟩ emptyTrace 1 true rfl⟩

/-- C9: a raising poll with errno `EAGAIN` or `EINTR` is swallowed
(lines 108-113) and the loop continues with state and trace unchanged;
any other errno propagates to the outermost handler (lines 134-136) and
the loop returns `False`. -/
theorem poll_failure_transient_or_fatal (L : Sock) (sok : Sock → Nat → Bool)
    (st : ServerState) (tr : Trace) (n : Nat) (ts : List TickEnv) :
    ((n = EAGAIN ∨ n = EINTR) →
      runTicks L sok st tr (.pollErr n :: ts) = runTicks L sok st tr ts) ∧
    (n ≠ EAGAIN → n ≠ EINTR →
      runTicks L sok st tr (.pollErr n :: ts) = .done false tr) := by
  constructor
  · intro h
    simp [runTicks, tick, h]
  · intro h1 h2
    simp [runTicks, tick, h1, h2]

theorem poll_failure_transient_or_fatal_witness :
    runTicks 0 (fun _ _ => true) ⟨[0], [], []⟩ emptyTrace [.pollErr 4] =
      .running ⟨[0], [], []⟩ emptyTrace ∧
    runTicks 0 (fun _ _ => true) ⟨[0], [], []⟩ emptyTrace [.pollErr 7] =
      .done false emptyTrace :=
  ⟨((poll_failure_transient_or_fatal 0 (fun _ _ => true) ⟨[0], [], []⟩ emptyTrace 4 []).1
      (Or.inr rfl)).trans rfl,
   (poll_failure_transient_or_fatal 0 (fun _ _ => true) ⟨[0], [], []⟩ emptyTrace 7 []).2
      (by decide) (by decide)⟩

/-- C2: a readable event delivering the literal payload `stop` on a
registered connection (lines 71-73) appends the shutdown notice — and not
the payload — to that connection's queue, leaves the writable-interest
list unchanged, and raises `StopIteration`, so the run leaves the RUNNING
phase for the drain and returns `True`. -/
theorem stop_command_starts_drain (L c : Sock) (sok : Sock → Nat → Bool)
    (st : ServerState) (tr : Trace) (q : List Chunk)
    (hq : dictLookup st.messages c = some q)
    (wevs : List (Sock × Bool)) (eevs : List Sock) (ts : List TickEnv) :
    handleRead L st tr (.dat c stopCommand) =
      .stop { st with messages := dictSet st.messages c (q ++ [shutdownNotice]) } tr ∧
    runTicks L sok st tr (.poll [.dat c stopCommand] wevs eevs :: ts) =
      .done true (drainAll L sok st.inputs
        { st with messages := dictSet st.messages c (q ++ [shutdownNotice]) } tr) := by
  have h1 : handleRead L st tr (.dat c stopCommand) =
      .stop { st with messages := dictSet st.messages c (q ++ [shutdownNotice]) } tr := by
    simp [handleRead, hq, stopCommand]
  refine ⟨h1, ?_⟩
  simp [runTicks, tick, readsPass, h1, PassOut.andThen]

theorem stop_command_starts_drain_witness :
    dictLookup (ServerState.mk [0, 1] [] [(1, ["a"])]).messages 1 = some ["a"] ∧
    runTicks 0 (fun _ _ => true) ⟨[0, 1], [], [(1, ["a"])]⟩ emptyTrace
        [.poll [.dat 1 stopCommand] [] []] =
      .done true (drainAll 0 (fun _ _ => true) [0, 1]
        ⟨[0, 1], [], [(1, ["a", shutdownNotice])]⟩ emptyTrace) :=
  ⟨rfl,
   (stop_command_starts_drain 0 1 (fun _ _ => true) ⟨[0, 1], [], [(1, ["a"])]⟩
      emptyTrace ["a"] rfl [] [] []).2⟩

/-! ## Drain lemmas, C3, C4 -/

theorem drainStep_all_ok (ok : Nat → Bool) (h : ∀ k, ok k = true) :
    ∀ (q : List Chunk) (k : Nat), drainStep ok k q = (q, []) := by
  intro q
  induction q with
  | nil => intro k; rfl
  | cons m rest ih =>
    intro k
    simp [drainStep, h k, ih (k + 1)]

theorem drainAll_closed_mono (L : Sock) (sok : Sock → Nat → Bool) (cs : List Sock) :
    ∀ (st : ServerState) (tr : Trace) (x : Sock),
      x ∈ tr.closed → x ∈ (drainAll L sok cs st tr).closed := by
  induction cs with
  | nil => intro st tr x h; exact h
  | cons c cs ih =>
    intro st tr x h
    by_cases hL : c = L
    · rw [drainAll, if_pos hL]
      exact ih st tr x h
    · rw [drainAll, if_neg hL]
      cases hq : dictLookup st.messages c with
      | none => exact ih _ _ x (by simp [h])
      | some q => exact ih _ _ x (by simp [h])

theorem drainAll_closes_all (L : Sock) (sok : Sock → Nat → Bool) (cs : List Sock) :
    ∀ (st : ServerState) (tr : Trace) (c : Sock),
      c ∈ cs → c ≠ L → c ∈ (drainAll L sok cs st tr).closed := by
  induction cs with
  | nil => intro st tr c h; cases h
  | cons c0 cs ih =>
    intro st tr c h hcL
    by_cases hL : c0 = L
    · rw [drainAll, if_pos hL]
      rcases List.mem_cons.mp h with h0 | h0
      · exact absurd (h0.trans hL) hcL
      · exact ih st tr c h0 hcL
    · rw [drainAll, if_neg hL]
      rcases List.mem_cons.mp h with h0 | h0
      · subst h0
        cases hq : dictLookup st.messages c with
        | none => exact drainAll_closed_mono L sok cs _ _ c (by simp)
        | some q => exact drainAll_closed_mono L sok cs _ _ c (by simp)
      · cases hq : dictLookup st.messages c0 with
        | none => exact ih _ _ c h0 hcL
        | some q => exact ih _ _ c h0 hcL

/-- C3: whenever a loop iteration ends on the shutdown path (the `stop`
command raising `StopIteration`, or an external `KeyboardInterrupt`), the
loop returns `True` after the drain pass (lines 114-133), for every
registry state and every outcome `sok` of the drain sends; and every
non-listener socket alive at drain start appears in the closed trace —
the `finally` at line 130 closes it on every exit path, even when its
sends raise. -/
theorem shutdown_returns_true_closes_all (L : Sock) (sok : Sock → Nat → Bool)
    (st st1 : ServerState) (tr tr1 : Trace) (t : TickEnv) (ts : List TickEnv)
    (h : tick L st tr t = .stop st1 tr1) :
    runTicks L sok st tr (t :: ts) =
      .done true (drainAll L sok st1.inputs st1 tr1) ∧
    ∀ c, c ∈ st1.inputs → c ≠ L →
      c ∈ (drainAll L sok st1.inputs st1 tr1).closed := by
  constructor
  · rw [runTicks, h]
  · intro c hc hcL
    exact drainAll_closes_all L sok st1.inputs st1 tr1 c hc hcL

theorem shutdown_returns_true_closes_all_witness :
    runTicks 0 (fun _ _ => false) ⟨[0, 1], [], [(1, ["m"])]⟩ emptyTrace [.interrupt] =
      .done true (drainAll 0 (fun _ _ => false) [0, 1]
        ⟨[0, 1], [], [(1, ["m"])]⟩ emptyTrace) ∧
    1 ∈ (drainAll 0 (fun _ _ => false) [0, 1]
        ⟨[0, 1], [], [(1, ["m"])]⟩ emptyTrace).closed :=
  ⟨(shutdown_returns_true_closes_all 0 (fun _ _ => false) ⟨[0, 1], [], [(1, ["m"])]⟩
      ⟨[0, 1], [], [(1, ["m"])]⟩ emptyTrace emptyTrace .interrupt [] rfl).1,
   (shutdown_returns_true_closes_all 0 (fun _ _ => false) ⟨[0, 1], [], [(1, ["m"])]⟩
      ⟨[0, 1], [], [(1, ["m"])]⟩ emptyTrace emptyTrace .interrupt [] rfl).2
     1 (by decide) (by decide)⟩

theorem drainAll_sentTo_frame (L : Sock) (sok : Sock → Nat → Bool) (cs : List Sock) :
    ∀ (st : ServerState) (tr : Trace) (c : Sock),
      c ∉ cs → sentTo c (drainAll L sok cs st tr) = sentTo c tr := by
  induction cs with
  | nil => intro st tr c _; rfl
  | cons c0 cs ih =>
    intro st tr c hc
    have hc0 : c0 ≠ c := fun h => hc (h ▸ List.mem_cons_self c0 cs)
    have hcs : c ∉ cs := fun h => hc (List.mem_cons_of_mem c0 h)
    by_cases hL : c0 = L
    · rw [drainAll, if_pos hL]
      exact ih st tr c hcs
    · rw [drainAll, if_neg hL]
      cases hq : dictLookup st.messages c0 with
      | none => exact ih _ _ c hcs
      | some q =>
        rw [ih _ _ c hcs]
        simp [sentTo, sentOf_append, sentOf_map_other c c0 hc0]

/-- C4: for every live connection `c` with queue `q` at drain start, the
drain pops and attempts to send all of `q` in FIFO order (provided no
send on `c` raises), in one linear pass over the live-socket list that
never re-enters `runTicks`. -/
theorem drain_completeness (L c : Sock) (sok : Sock → Nat → Bool) (cs : List Sock)
    (st : ServerState) (tr : Trace) (q : List Chunk)
    (hc : c ∈ cs) (hcL : c ≠ L)
    (hq : dictLookup st.messages c = some q)
    (hok : ∀ k, sok c k = true) :
    sentTo c (drainAll L sok cs st tr) = sentTo c tr ++ q := by
  induction cs generalizing st tr q with
  | nil => cases hc
  | cons c0 cs ih =>
    by_cases hL : c0 = L
    · rw [drainAll, if_pos hL]
      rcases List.mem_cons.mp hc with h0 | h0
      · exact absurd (h0.trans hL) hcL
      · exact ih _ _ _ h0 hq
    · rw [drainAll, if_neg hL]
      by_cases hcc : c = c0
      · subst hcc
        rw [hq]
        simp only [drainStep_all_ok (sok c) hok q 0]
        have hsent : sentTo c { tr with
            sent := tr.sent ++ q.map (fun m => (c, m)),
            closed := tr.closed ++ [c] } = sentTo c tr ++ q := by
          simp [sentTo, sentOf_append, sentOf_map_self]
        by_cases hmem : c ∈ cs
        · rw [ih _ _ _ hmem (dictLookup_set_self st.messages c []), hsent]
          simp
        · rw [drainAll_sentTo_frame L sok cs _ _ c hmem, hsent]
      · have h0 : c ∈ cs := by
          rcases List.mem_cons.mp hc with h | h
          · exact absurd h hcc
          · exact h
        cases hq0 : dictLookup st.messages c0 with
        | none => exact ih _ _ _ h0 hq
        | some q0 =>
          have hq' : dictLookup (dictSet st.messages c0
              (drainStep (sok c0) 0 q0).2) c = some q := by
            rw [dictLookup_set_other st.messages c0 c _ (Ne.symm hcc), hq]
          rw [ih _ _ _ h0 hq']
          have : c0 ≠ c := Ne.symm hcc
          simp [sentTo, sentOf_append, sentOf_map_other c c0 this]

theorem drain_completeness_witness :
    dictLookup (ServerState.mk [0, 1, 2] [1] [(1, ["a", "b"]), (2, ["z"])]).messages 1 =
      some ["a", "b"] ∧
    sentTo 1 (drainAll 0 (fun s _ => s = 1) [0, 1, 2]
        ⟨[0, 1, 2], [1], [(1, ["a", "b"]), (2, ["z"])]⟩ emptyTrace) =
      sentTo 1 emptyTrace ++ ["a", "b"] :=
  ⟨rfl,
   drain_completeness 0 1 (fun s _ => s = 1) [0, 1, 2]
     ⟨[0, 1, 2], [1], [(1, ["a", "b"]), (2, ["z"])]⟩ emptyTrace ["a", "b"]
     (by decide) (by decide) rfl (fun k => rfl)⟩

/-! ## C6: error-event teardown -/

/-- C6 (amended): an error event on a connection that is still registered
when the error pass reaches it tears down only that connection — it is
removed from both interest lists, closed, and its registry entry deleted
— the iteration completes normally (the loop keeps running) and the
queues and interest-list membership of every other connection are
unchanged.  When the same socket was already torn down earlier in the
same iteration, `handleError` instead raises (see the counterexample). -/
theorem error_event_isolated (L s : Sock) (st : ServerState) (tr : Trace)
    (hin : s ∈ st.inputs) (hm : dictMem st.messages s = true)
    (hndI : st.inputs.Nodup) (hndO : st.outputs.Nodup)
    (hndK : (st.messages.map Prod.fst).Nodup) :
    tick L st tr (.poll [] [] [s]) =
      .ok ⟨st.inputs.erase s,
           if s ∈ st.outputs then st.outputs.erase s else st.outputs,
           dictDel st.messages s⟩
         { tr with closed := tr.closed ++ [s] } ∧
    s ∉ st.inputs.erase s ∧
    s ∉ (if s ∈ st.outputs then st.outputs.erase s else st.outputs) ∧
    dictLookup (dictDel st.messages s) s = none ∧
    (∀ c, c ≠ s → dictLookup (dictDel st.messages s) c = dictLookup st.messages c) ∧
    (∀ c, c ≠ s →
      ((c ∈ st.inputs.erase s ↔ c ∈ st.inputs) ∧
       (c ∈ (if s ∈ st.outputs then st.outputs.erase s else st.outputs) ↔
         c ∈ st.outputs))) := by
  refine ⟨?_, hndI.not_mem_erase, ?_, dictLookup_del_self _ _ hndK, ?_, ?_⟩
  · have he : handleError st tr s =
        .ok ⟨st.inputs.erase s,
             if s ∈ st.outputs then st.outputs.erase s else st.outputs,
             dictDel st.messages s⟩
           { tr with closed := tr.closed ++ [s] } := by
      by_cases ho : s ∈ st.outputs
      · simp [handleError, pyRemove, hin, hm, ho]
      · simp [handleError, pyRemove, hin, hm, ho]
    simp [tick, readsPass, writesPass, errorsPass, PassOut.andThen, he]
  · by_cases ho : s ∈ st.outputs
    · rw [if_pos ho]
      exact hndO.not_mem_erase
    · rw [if_neg ho]
      exact ho
  · intro c hc
    exact dictLookup_del_other st.messages s c (Ne.symm hc)
  · intro c hc
    constructor
    · exact List.mem_erase_of_ne hc
    · by_cases ho : s ∈ st.outputs
      · rw [if_pos ho]
        exact List.mem_erase_of_ne hc
      · rw [if_neg ho]

theorem error_event_isolated_witness :
    tick 0 ⟨[0, 1, 2], [1], [(1, ["a"]), (2, ["b"])]⟩ emptyTrace (.poll [] [] [1]) =
      .ok ⟨[0, 2], [], [(2, ["b"])]⟩ ⟨[], [], [], [1]⟩ ∧
    dictLookup (dictDel [(1, ["a"]), (2, ["b"])] 1) 2 = dictLookup [(1, ["a"]), (2, ["b"])] 2 :=
  ⟨(error_event_isolated 0 1 ⟨[0, 1, 2], [1], [(1, ["a"]), (2, ["b"])]⟩ emptyTrace
      (by decide) (by decide) (by decide) (by decide) (by decide)).1,
   (error_event_isolated 0 1 ⟨[0, 1, 2], [1], [(1, ["a"]), (2, ["b"])]⟩ emptyTrace
      (by decide) (by decide) (by decide) (by decide) (by decide)).2.2.2.2.1
     2 (by decide)⟩

/-- C6 counterexample: when the same socket delivers end-of-file in the
readable pass and also fires in the error pass of the same iteration, the
error pass's `inputs.remove` raises `ValueError` on the already-removed
socket (line 105), the outermost handler catches it (lines 134-136) and
the loop returns `False` — the error event IS fatal to the loop, refuting
the claim's "never fatal, including when the same socket also produced an
EOF or error in the same tick". -/
theorem error_event_same_tick_fatal :
    runTicks 0 (fun _ _ => true) ⟨[0, 1], [], [(1, [])]⟩ emptyTrace
        [.poll [.dat 1 ""] [] [1]] = .done false emptyTrace := by decide

/-! ## C5: the registry/interest-set invariant -/

/-- The invariant the loop actually maintains: the registry keys are
exactly the readable-interest sockets other than the listener, every
writable-interest socket has a registry entry (its queue may be empty for
one poll cycle after its last chunk was sent), and the interest lists and
key list never hold duplicates. -/
def registryInv (L : Sock) (st : ServerState) : Prop :=
  (∀ s, dictMem st.messages s = true ↔ (s ∈ st.inputs ∧ s ≠ L)) ∧
  (∀ s, s ∈ st.outputs → dictMem st.messages s = true) ∧
  st.inputs.Nodup ∧ st.outputs.Nodup ∧ (st.messages.map Prod.fst).Nodup

/-- The invariant exactly as the spec words it: every writable-interest
socket has a NON-EMPTY queue entry, and the registry keys are exactly the
readable-interest sockets minus the listener. -/
def specClaimedInv (L : Sock) (st : ServerState) : Bool :=
  st.outputs.all (fun s =>
    match dictLookup st.messages s with
    | some q => !q.isEmpty
    | none => false) &&
  st.inputs.all (fun s => (s == L) || dictMem st.messages s) &&
  (st.messages.map Prod.fst).all (fun k => st.inputs.contains k && !(k == L))

/-- A readable event the operating system can actually report: an
accepted socket is a fresh descriptor, never the listener and never a
socket already watched. -/
def wfReadEv (L : Sock) (st : ServerState) : ReadEv → Bool
  | .acc a => decide (a ∉ st.inputs) && decide (a ≠ L)
  | .dat _ _ => true

def wfReadEvs (L : Sock) : ServerState → Trace → List ReadEv → Bool
  | _, _, [] => true
  | st, tr, e :: es =>
    wfReadEv L st e &&
    (match handleRead L st tr e with
     | .ok st' tr' => wfReadEvs L st' tr' es
     | _ => true)

def wfTick (L : Sock) (st : ServerState) (tr : Trace) : TickEnv → Bool
  | .poll revs _ _ => wfReadEvs L st tr revs
  | _ => true

theorem dictMem_set_of_mem (m : List (Sock × List Chunk)) (s : Sock) (v : List Chunk)
    (h : dictMem m s = true) (x : Sock) :
    dictMem (dictSet m s v) x = dictMem m x := by
  by_cases hx : s = x
  · subst hx
    simp [dictMem, dictLookup_set_self, dictMem] at h ⊢
    exact h
  · simp [dictMem, dictLookup_set_other m s x v hx]

theorem handleRead_eof_ok (L s : Sock) (st st' : ServerState) (tr tr' : Trace)
    (h : handleRead L st tr (.dat s "") = .ok st' tr') :
    s ∈ st.inputs ∧ dictMem st.messages s = true ∧
    st' = ⟨st.inputs.erase s,
           if s ∈ st.outputs then st.outputs.erase s else st.outputs,
           dictDel st.messages s⟩ ∧
    tr' = { tr with closed := tr.closed ++ [s] } := by
  by_cases hin : s ∈ st.inputs
  · by_cases hm : dictMem st.messages s = true
    · have hstep : handleRead L st tr (.dat s "") =
          .ok ⟨st.inputs.erase s,
               if s ∈ st.outputs then st.outputs.erase s else st.outputs,
               dictDel st.messages s⟩
             { tr with closed := tr.closed ++ [s] } := by
        by_cases ho : s ∈ st.outputs
        · simp [handleRead, pyRemove, hin, hm, ho]
        · simp [handleRead, pyRemove, hin, hm, ho]
      rw [hstep] at h
      injection h with e1 e2
      exact ⟨hin, hm, e1.symm, e2.symm⟩
    · simp [handleRead, pyRemove, hin, hm] at h
  · simp [handleRead, pyRemove, hin] at h

theorem handleError_ok (s : Sock) (st st' : ServerState) (tr tr' : Trace)
    (h : handleError st tr s = .ok st' tr') :
    s ∈ st.inputs ∧ dictMem st.messages s = true ∧
    st' = ⟨st.inputs.erase s,
           if s ∈ st.outputs then st.outputs.erase s else st.outputs,
           dictDel st.messages s⟩ ∧
    tr' = { tr with closed := tr.closed ++ [s] } := by
  by_cases hin : s ∈ st.inputs
  · by_cases hm : dictMem st.messages s = true
    · have hstep : handleError st tr s =
          .ok ⟨st.inputs.erase s,
               if s ∈ st.outputs then st.outputs.erase s else st.outputs,
               dictDel st.messages s⟩
             { tr with closed := tr.closed ++ [s] } := by
        by_cases ho : s ∈ st.outputs
        · simp [handleError, pyRemove, hin, hm, ho]
        · simp [handleError, pyRemove, hin, hm, ho]
      rw [hstep] at h
      injection h with e1 e2
      exact ⟨hin, hm, e1.symm, e2.symm⟩
    · simp [handleError, pyRemove, hin, hm] at h
  · simp [handleError, pyRemove, hin] at h

theorem registryInv_teardown (L s : Sock) (st : ServerState) (hi : registryInv L st) :
    registryInv L ⟨st.inputs.erase s,
      if s ∈ st.outputs then st.outputs.erase s else st.outputs,
      dictDel st.messages s⟩ := by
  obtain ⟨h1, h2, h3, h4, h5⟩ := hi
  refine ⟨?_, ?_, h3.erase s, ?_, ?_⟩
  · intro x
    constructor
    · intro hmx
      have hxs : x ≠ s := by
        intro he
        subst he
        rw [dictMem, dictLookup_del_self _ _ h5] at hmx
        cases hmx
      rw [dictMem, dictLookup_del_other _ _ _ (Ne.symm hxs), ← dictMem] at hmx
      obtain ⟨hin, hne⟩ := (h1 x).mp hmx
      exact ⟨(List.mem_erase_of_ne hxs).mpr hin, hne⟩
    · rintro ⟨hin, hne⟩
      have hxs : x ≠ s := by
        intro he
        subst he
        exact h3.not_mem_erase hin
      rw [dictMem, dictLookup_del_other _ _ _ (Ne.symm hxs), ← dictMem]
      exact (h1 x).mpr ⟨List.mem_of_mem_erase hin, hne⟩
  · intro x hx
    have hxo : x ∈ st.outputs := by
      by_cases ho : s ∈ st.outputs
      · rw [if_pos ho] at hx
        exact List.mem_of_mem_erase hx
      · rw [if_neg ho] at hx
        exact hx
    have hxs : x ≠ s := by
      intro he
      subst he
      by_cases ho : x ∈ st.outputs
      · rw [if_pos ho] at hx
        exact h4.not_mem_erase hx
      · rw [if_neg ho] at hx
        exact ho hx
    rw [dictMem, dictLookup_del_other _ _ _ (Ne.symm hxs), ← dictMem]
    exact h2 x hxo
  · by_cases ho : s ∈ st.outputs
    · rw [if_pos ho]
      exact h4.erase s
    · rw [if_neg ho]
      exact h4
  · rw [keys_dictDel]
    exact h5.erase s

theorem handleRead_data_ok (L s : Sock) (d : Chunk) (st st' : ServerState)
    (tr tr' : Trace) (hd0 : d ≠ "") (hds : d ≠ stopCommand)
    (h : handleRead L st tr (.dat s d) = .ok st' tr') :
    ∃ q, dictLookup st.messages s = some q ∧
      st' = { st with
              outputs := if s ∈ st.outputs then st.outputs else st.outputs ++ [s],
              messages := dictSet st.messages s (q ++ [d]) } ∧
      tr' = tr := by
  cases hq : dictLookup st.messages s with
  | none => simp [handleRead, hd0, hq] at h
  | some q =>
    have hstep : handleRead L st tr (.dat s d) =
        .ok { st with
              outputs := if s ∈ st.outputs then st.outputs else st.outputs ++ [s],
              messages := dictSet st.messages s (q ++ [d]) } tr := by
      simp [handleRead, hd0, hq, hds]
    rw [hstep] at h
    injection h with e1 e2
    exact ⟨q, rfl, e1.symm, e2.symm⟩

theorem handleRead_stop_not_ok (L s : Sock) (st st' : ServerState) (tr tr' : Trace)
    (h : handleRead L st tr (.dat s stopCommand) = .ok st' tr') : False := by
  cases hq : dictLookup st.messages s with
  | none => simp [handleRead, stopCommand, hq] at h
  | some q => simp [handleRead, stopCommand, hq] at h

theorem registryInv_acc (L a : Sock) (st st' : ServerState) (tr tr' : Trace)
    (h : handleRead L st tr (.acc a) = .ok st' tr')
    (ha : a ∉ st.inputs) (haL : a ≠ L)
    (hi : registryInv L st) : registryInv L st' := by
  obtain ⟨h1, h2, h3, h4, h5⟩ := hi
  have h' : PassOut.ok
      { st with inputs := st.inputs ++ [a], messages := dictSet st.messages a [] }
      { tr with accepted := tr.accepted ++ [a], nonblk := tr.nonblk ++ [a] } =
      .ok st' tr' := h
  injection h' with e1 e2
  rw [← e1]
  have hma : dictMem st.messages a = false := by
    cases hb : dictMem st.messages a with
    | false => rfl
    | true => exact absurd ((h1 a).mp hb).1 ha
  have hka : a ∉ st.messages.map Prod.fst := by
    intro hk
    rw [← dictMem_iff_mem_keys, hma] at hk
    cases hk
  have hkeys := keys_dictSet_of_not_mem st.messages a [] hma
  refine ⟨?_, ?_, ?_, h4, ?_⟩
  · intro x
    rw [dictMem_iff_mem_keys]
    show x ∈ (dictSet st.messages a []).map Prod.fst ↔ x ∈ st.inputs ++ [a] ∧ x ≠ L
    rw [hkeys]
    constructor
    · intro hx
      rcases List.mem_append.mp hx with hx | hx
      · rw [← dictMem_iff_mem_keys] at hx
        obtain ⟨hin, hne⟩ := (h1 x).mp hx
        exact ⟨List.mem_append_left _ hin, hne⟩
      · have hxa : x = a := List.mem_singleton.mp hx
        subst hxa
        exact ⟨List.mem_append_right _ (List.mem_singleton.mpr rfl), haL⟩
    · rintro ⟨hin, hne⟩
      rcases List.mem_append.mp hin with hx | hx
      · exact List.mem_append_left _ ((dictMem_iff_mem_keys _ x).mp ((h1 x).mpr ⟨hx, hne⟩))
      · exact List.mem_append_right _ hx
  · intro x hx
    rw [dictMem_iff_mem_keys]
    show x ∈ (dictSet st.messages a []).map Prod.fst
    rw [hkeys]
    exact List.mem_append_left _ ((dictMem_iff_mem_keys _ x).mp (h2 x hx))
  · exact ((List.perm_append_singleton a st.inputs).nodup_iff).mpr
      (List.nodup_cons.mpr ⟨ha, h3⟩)
  · show ((dictSet st.messages a []).map Prod.fst).Nodup
    rw [hkeys]
    exact ((List.perm_append_singleton a _).nodup_iff).mpr
      (List.nodup_cons.mpr ⟨hka, h5⟩)

theorem registryInv_dat (L s : Sock) (d : Chunk) (st st' : ServerState)
    (tr tr' : Trace) (h : handleRead L st tr (.dat s d) = .ok st' tr')
    (hi : registryInv L st) : registryInv L st' := by
  by_cases hd0 : d = ""
  · subst hd0
    obtain ⟨hin, hm, hst, htr⟩ := handleRead_eof_ok L s st st' tr tr' h
    rw [hst]
    exact registryInv_teardown L s st hi
  · by_cases hds : d = stopCommand
    · subst hds
      exact absurd h (fun h => handleRead_stop_not_ok L s st st' tr tr' h)
    · obtain ⟨q, hq, hst, htr⟩ := handleRead_data_ok L s d st st' tr tr' hd0 hds h
      rw [hst]
      obtain ⟨h1, h2, h3, h4, h5⟩ := hi
      have hm : dictMem st.messages s = true := by
        rw [dictMem, hq]
        rfl
      refine ⟨?_, ?_, h3, ?_, ?_⟩
      · intro x
        show dictMem (dictSet st.messages s (q ++ [d])) x = true ↔ _
        rw [dictMem_set_of_mem _ _ _ hm x]
        exact h1 x
      · intro x hx
        show dictMem (dictSet st.messages s (q ++ [d])) x = true
        rw [dictMem_set_of_mem _ _ _ hm x]
        by_cases ho : s ∈ st.outputs
        · rw [if_pos ho] at hx
          exact h2 x hx
        · rw [if_neg ho] at hx
          rcases List.mem_append.mp hx with hx | hx
          · exact h2 x hx
          · have hxs : x = s := List.mem_singleton.mp hx
            subst hxs
            exact hm
      · show (if s ∈ st.outputs then st.outputs else st.outputs ++ [s]).Nodup
        by_cases ho : s ∈ st.outputs
        · rw [if_pos ho]
          exact h4
        · rw [if_neg ho]
          exact ((List.perm_append_singleton s st.outputs).nodup_iff).mpr
            (List.nodup_cons.mpr ⟨ho, h4⟩)
      · show ((dictSet st.messages s (q ++ [d])).map Prod.fst).Nodup
        rw [keys_dictSet_of_mem _ _ _ hm]
        exact h5

theorem registryInv_handleWrite (L : Sock) (st st' : ServerState) (tr tr' : Trace)
    (w : Sock × Bool) (h : handleWrite st tr w = .ok st' tr')
    (hi : registryInv L st) : registryInv L st' := by
  obtain ⟨s, b⟩ := w
  cases hq : dictLookup st.messages s with
  | none =>
    have hstep : handleWrite st tr (s, b) = .ok st tr := by
      simp [handleWrite, hq]
    rw [hstep] at h
    injection h with e1 e2
    rw [← e1]
    exact hi
  | some q =>
    cases q with
    | nil =>
      by_cases ho : s ∈ st.outputs
      · have hstep : handleWrite st tr (s, b) =
            .ok { st with outputs := st.outputs.erase s } tr := by
          simp [handleWrite, hq, pyRemove, ho]
        rw [hstep] at h
        injection h with e1 e2
        rw [← e1]
        obtain ⟨h1, h2, h3, h4, h5⟩ := hi
        exact ⟨h1, fun x hx => h2 x (List.mem_of_mem_erase hx), h3, h4.erase s, h5⟩
      · simp [handleWrite, hq, pyRemove, ho] at h
    | cons m rest =>
      cases b with
      | false => simp [handleWrite, hq] at h
      | true =>
        have hstep : handleWrite st tr (s, true) =
            .ok { st with messages := dictSet st.messages s rest }
               { tr with sent := tr.sent ++ [(s, m)] } := by
          simp [handleWrite, hq]
        rw [hstep] at h
        injection h with e1 e2
        rw [← e1]
        obtain ⟨h1, h2, h3, h4, h5⟩ := hi
        have hm : dictMem st.messages s = true := by
          rw [dictMem, hq]
          rfl
        refine ⟨?_, ?_, h3, h4, ?_⟩
        · intro x
          show dictMem (dictSet st.messages s rest) x = true ↔ _
          rw [dictMem_set_of_mem _ _ _ hm x]
          exact h1 x
        · intro x hx
          show dictMem (dictSet st.messages s rest) x = true
          rw [dictMem_set_of_mem _ _ _ hm x]
          exact h2 x hx
        · show ((dictSet st.messages s rest).map Prod.fst).Nodup
          rw [keys_dictSet_of_mem _ _ _ hm]
          exact h5

theorem registryInv_handleError (L s : Sock) (st st' : ServerState) (tr tr' : Trace)
    (h : handleError st tr s = .ok st' tr') (hi : registryInv L st) :
    registryInv L st' := by
  obtain ⟨hin, hm, hst, htr⟩ := handleError_ok s st st' tr tr' h
  rw [hst]
  exact registryInv_teardown L s st hi

theorem registryInv_readsPass (L : Sock) (revs : List ReadEv) :
    ∀ (st st' : ServerState) (tr tr' : Trace),
      readsPass L st tr revs = .ok st' tr' →
      wfReadEvs L st tr revs = true →
      registryInv L st → registryInv L st' := by
  induction revs with
  | nil =>
    intro st st' tr tr' h _ hi
    have h' : PassOut.ok st tr = .ok st' tr' := h
    injection h' with e1 e2
    rw [← e1]
    exact hi
  | cons e es ih =>
    intro st st' tr tr' h hwf hi
    cases hh : handleRead L st tr e with
    | ok st1 tr1 =>
      rw [readsPass, hh] at h
      have h' : readsPass L st1 tr1 es = .ok st' tr' := h
      rw [wfReadEvs, hh] at hwf
      have hwf' : (wfReadEv L st e && wfReadEvs L st1 tr1 es) = true := hwf
      rw [Bool.and_eq_true] at hwf'
      obtain ⟨hw1, hw2⟩ := hwf'
      have hi1 : registryInv L st1 := by
        cases e with
        | acc a =>
          have hwa : (decide (a ∉ st.inputs) && decide (a ≠ L)) = true := hw1
          rw [Bool.and_eq_true] at hwa
          obtain ⟨ha1, ha2⟩ := hwa
          exact registryInv_acc L a st st1 tr tr1 hh
            (of_decide_eq_true ha1) (of_decide_eq_true ha2) hi
        | dat s d => exact registryInv_dat L s d st st1 tr tr1 hh hi
      exact ih st1 st' tr1 tr' h' hw2 hi1
    | stop st1 tr1 =>
      rw [readsPass, hh] at h
      have h' : PassOut.stop st1 tr1 = .ok st' tr' := h
      cases h'
    | exc =>
      rw [readsPass, hh] at h
      have h' : PassOut.exc = .ok st' tr' := h
      cases h'

theorem registryInv_writesPass (L : Sock) (wevs : List (Sock × Bool)) :
    ∀ (st st' : ServerState) (tr tr' : Trace),
      writesPass st tr wevs = .ok st' tr' →
      registryInv L st → registryInv L st' := by
  induction wevs with
  | nil =>
    intro st st' tr tr' h hi
    have h' : PassOut.ok st tr = .ok st' tr' := h
    injection h' with e1 e2
    rw [← e1]
    exact hi
  | cons w ws ih =>
    intro st st' tr tr' h hi
    cases hh : handleWrite st tr w with
    | ok st1 tr1 =>
      rw [writesPass, hh] at h
      have h' : writesPass st1 tr1 ws = .ok st' tr' := h
      exact ih st1 st' tr1 tr' h' (registryInv_handleWrite L st st1 tr tr1 w hh hi)
    | stop st1 tr1 =>
      rw [writesPass, hh] at h
      have h' : PassOut.stop st1 tr1 = .ok st' tr' := h
      cases h'
    | exc =>
      rw [writesPass, hh] at h
      have h' : PassOut.exc = .ok st' tr' := h
      cases h'

theorem registryInv_errorsPass (L : Sock) (eevs : List Sock) :
    ∀ (st st' : ServerState) (tr tr' : Trace),
      errorsPass st tr eevs = .ok st' tr' →
      registryInv L st → registryInv L st' := by
  induction eevs with
  | nil =>
    intro st st' tr tr' h hi
    have h' : PassOut.ok st tr = .ok st' tr' := h
    injection h' with e1 e2
    rw [← e1]
    exact hi
  | cons s ss ih =>
    intro st st' tr tr' h hi
    cases hh : handleError st tr s with
    | ok st1 tr1 =>
      rw [errorsPass, hh] at h
      have h' : errorsPass st1 tr1 ss = .ok st' tr' := h
      exact ih st1 st' tr1 tr' h' (registryInv_handleError L s st st1 tr tr1 hh hi)
    | stop st1 tr1 =>
      rw [errorsPass, hh] at h
      have h' : PassOut.stop st1 tr1 = .ok st' tr' := h
      cases h'
    | exc =>
      rw [errorsPass, hh] at h
      have h' : PassOut.exc = .ok st' tr' := h
      cases h'

/-- C5 (amended): the invariant the loop really preserves on every
completed iteration over operating-system-producible events: registry
keys are exactly the readable-interest sockets minus the listener, every
writable-interest socket has a registry entry — whose queue MAY be empty
for one poll cycle, after its last chunk was sent and before the next
writable event evicts it — and the interest lists and registry keys are
duplicate-free.  The spec's stronger "non-empty queue entry" clause is
refuted by the counterexample theorem. -/
theorem registry_invariant_preserved (L : Sock) (st st' : ServerState)
    (tr tr' : Trace) (t : TickEnv)
    (hwf : wfTick L st tr t = true)
    (h : tick L st tr t = .ok st' tr')
    (hi : registryInv L st) : registryInv L st' := by
  cases t with
  | interrupt =>
    have h' : PassOut.stop st tr = .ok st' tr' := h
    cases h'
  | pollErr n =>
    by_cases hn : n = EAGAIN ∨ n = EINTR
    · rw [tick, if_pos hn] at h
      injection h with e1 e2
      rw [← e1]
      exact hi
    · rw [tick, if_neg hn] at h
      cases h
  | poll revs wevs eevs =>
    rw [tick] at h
    cases hr : readsPass L st tr revs with
    | ok st1 tr1 =>
      rw [hr] at h
      have h1 : (writesPass st1 tr1 wevs).andThen
          (fun st2 tr2 => errorsPass st2 tr2 eevs) = .ok st' tr' := h
      cases hw : writesPass st1 tr1 wevs with
      | ok st2 tr2 =>
        rw [hw] at h1
        have h2 : errorsPass st2 tr2 eevs = .ok st' tr' := h1
        have hwf' : wfReadEvs L st tr revs = true := hwf
        have hi1 := registryInv_readsPass L revs st st1 tr tr1 hr hwf' hi
        have hi2 := registryInv_writesPass L wevs st1 st2 tr1 tr2 hw hi1
        exact registryInv_errorsPass L eevs st2 st' tr2 tr' h2 hi2
      | stop st2 tr2 =>
        rw [hw] at h1
        have h2 : PassOut.stop st2 tr2 = .ok st' tr' := h1
        cases h2
      | exc =>
        rw [hw] at h1
        have h2 : PassOut.exc = .ok st' tr' := h1
        cases h2
    | stop st1 tr1 =>
      rw [hr] at h
      have h1 : PassOut.stop st1 tr1 = .ok st' tr' := h
      cases h1
    | exc =>
      rw [hr] at h
      have h1 : PassOut.exc = .ok st' tr' := h
      cases h1

theorem registryInv_init (L : Sock) : registryInv L ⟨[L], [], []⟩ := by
  refine ⟨?_, ?_, List.nodup_singleton L, List.nodup_nil, List.nodup_nil⟩
  · intro s
    constructor
    · intro h
      simp [dictMem, dictLookup] at h
    · rintro ⟨hin, hne⟩
      exact absurd (List.mem_singleton.mp hin) hne
  · intro s h
    cases h

theorem registry_invariant_preserved_witness :
    registryInv 0 ⟨[0, 1], [], [(1, [])]⟩ :=
  registry_invariant_preserved 0 ⟨[0], [], []⟩ ⟨[0, 1], [], [(1, [])]⟩
    emptyTrace ⟨[1], [1], [], []⟩ (.poll [.acc 1] [] [])
    rfl rfl (registryInv_init 0)

/-- C5 counterexample: from a state satisfying the invariant exactly as
the spec words it, one completed, well-formed loop iteration — a single
writable event that sends connection 1's only queued chunk (lines 88-98)
— yields a state in which socket 1 is still in the writable-interest set
with an EMPTY queue, so the claimed invariant is not preserved by every
step of the loop. -/
theorem registry_invariant_not_preserved_counterexample :
    specClaimedInv 0 ⟨[0, 1], [1], [(1, ["hi"])]⟩ = true ∧
    wfTick 0 ⟨[0, 1], [1], [(1, ["hi"])]⟩ emptyTrace (.poll [] [(1, true)] []) = true ∧
    tick 0 ⟨[0, 1], [1], [(1, ["hi"])]⟩ emptyTrace (.poll [] [(1, true)] []) =
      .ok ⟨[0, 1], [1], [(1, [])]⟩ ⟨[], [], [(1, "hi")], []⟩ ∧
    specClaimedInv 0 ⟨[0, 1], [1], [(1, [])]⟩ = false := by
  refine ⟨rfl, rfl, ?_, rfl⟩
  rfl

/-! ## C1: per-connection FIFO echo -/

/-- Per-connection invariant of a live client `c`: watched for reads,
registered, and in the writable-interest list whenever its queue is
non-empty. -/
def ConnInv (c : Sock) (st : ServerState) : Prop :=
  c ∈ st.inputs ∧ (dictLookup st.messages c).isSome = true ∧
  (queueOf c st ≠ [] → c ∈ st.outputs)

/-- An event that does not disturb connection `c`: any event on another
socket, or a data delivery on `c` that is neither end-of-file nor the
`stop` command. -/
def benignEv (c : Sock) : ReadEv → Bool
  | .acc a => decide (a ≠ c)
  | .dat s d => decide (s ≠ c) || (decide (d ≠ "") && decide (d ≠ stopCommand))

/-- A tick environment benign for `c`: no error event on `c`, all read
events benign for `c`, or a transient poll failure. -/
def benignTick (c : Sock) : TickEnv → Bool
  | .poll revs _ eevs => revs.all (benignEv c) && decide (c ∉ eevs)
  | .pollErr n => decide (n = EAGAIN) || decide (n = EINTR)
  | .interrupt => false

/-- The payload a read event delivers on connection `c`, if any. -/
def recvEvChunk (c : Sock) : ReadEv → Option Chunk
  | .dat s d => if s = c then some d else none
  | .acc _ => none

def recvOnTick (c : Sock) : TickEnv → List Chunk
  | .poll revs _ _ => revs.filterMap (recvEvChunk c)
  | _ => []

/-- All payloads received on connection `c` over a tick schedule, in
arrival order. -/
def recvOn (c : Sock) : List TickEnv → List Chunk
  | [] => []
  | t :: ts => recvOnTick c t ++ recvOn c ts

/-- A run of write-ready ticks for `c` alone — the level-triggered
readiness reports the OS keeps producing while `c` sits in the
writable-interest list with queued data. -/
def flushTicks (c : Sock) (n : Nat) : List TickEnv :=
  List.replicate n (.poll [] [(c, true)] [])

theorem connInv_handleRead (L c : Sock) (st st' : ServerState) (tr tr' : Trace)
    (e : ReadEv) (h : handleRead L st tr e = .ok st' tr')
    (hb : benignEv c e = true) (hc : ConnInv c st) :
    ConnInv c st' ∧
    sentTo c tr' ++ queueOf c st' =
      (sentTo c tr ++ queueOf c st) ++ (recvEvChunk c e).toList := by
  obtain ⟨hin, hsome, hne⟩ := hc
  cases e with
  | acc a =>
    have hac : a ≠ c := of_decide_eq_true hb
    have h' : PassOut.ok
        { st with inputs := st.inputs ++ [a], messages := dictSet st.messages a [] }
        { tr with accepted := tr.accepted ++ [a], nonblk := tr.nonblk ++ [a] } =
        .ok st' tr' := h
    injection h' with e1 e2
    rw [← e1, ← e2]
    have hlk : dictLookup (dictSet st.messages a []) c = dictLookup st.messages c :=
      dictLookup_set_other st.messages a c [] hac
    have hqof : queueOf c
        { st with inputs := st.inputs ++ [a], messages := dictSet st.messages a [] } =
        queueOf c st := by
      rw [queueOf, queueOf]
      show (dictLookup (dictSet st.messages a []) c).getD [] = _
      rw [hlk]
    refine ⟨⟨List.mem_append_left _ hin, ?_, ?_⟩, ?_⟩
    · show (dictLookup (dictSet st.messages a []) c).isSome = true
      rw [hlk]
      exact hsome
    · rw [hqof]
      exact hne
    · rw [hqof]
      simp [sentTo, recvEvChunk]
  | dat s d =>
    by_cases hsc : s = c
    · subst hsc
      have hb' : (decide (d ≠ "") && decide (d ≠ stopCommand)) = true := by
        rcases Bool.or_eq_true _ _ ▸ hb with h0 | h0
        · exact absurd rfl (of_decide_eq_true h0)
        · exact h0
      rw [Bool.and_eq_true] at hb'
      have hd0 : d ≠ "" := of_decide_eq_true hb'.1
      have hds : d ≠ stopCommand := of_decide_eq_true hb'.2
      obtain ⟨q, hq, hst, htr⟩ := handleRead_data_ok L s d st st' tr tr' hd0 hds h
      rw [hst, htr]
      have hqof : queueOf s st = q := by
        rw [queueOf, hq]
        rfl
      have hq' : dictLookup (dictSet st.messages s (q ++ [d])) s = some (q ++ [d]) :=
        dictLookup_set_self st.messages s (q ++ [d])
      refine ⟨⟨hin, ?_, ?_⟩, ?_⟩
      · show (dictLookup (dictSet st.messages s (q ++ [d])) s).isSome = true
        rw [hq']
        rfl
      · intro _
        show s ∈ (if s ∈ st.outputs then st.outputs else st.outputs ++ [s])
        by_cases ho : s ∈ st.outputs
        · rw [if_pos ho]
          exact ho
        · rw [if_neg ho]
          exact List.mem_append_right _ (List.mem_singleton.mpr rfl)
      · have hq2 : queueOf s
            { st with outputs := if s ∈ st.outputs then st.outputs else st.outputs ++ [s],
                      messages := dictSet st.messages s (q ++ [d]) } = q ++ [d] := by
          rw [queueOf]
          show (dictLookup (dictSet st.messages s (q ++ [d])) s).getD [] = q ++ [d]
          rw [hq']
          rfl
        rw [hq2, hqof]
        simp [recvEvChunk, List.append_assoc]
    · have hlk0 : (recvEvChunk c (.dat s d)).toList = [] := by
        simp [recvEvChunk, hsc]
      rw [hlk0, List.append_nil]
      by_cases hd0 : d = ""
      · subst hd0
        obtain ⟨hsin, hsm, hst, htr⟩ := handleRead_eof_ok L s st st' tr tr' h
        rw [hst, htr]
        have hlk : dictLookup (dictDel st.messages s) c = dictLookup st.messages c :=
          dictLookup_del_other st.messages s c hsc
        have hqof : queueOf c ⟨st.inputs.erase s,
            if s ∈ st.outputs then st.outputs.erase s else st.outputs,
            dictDel st.messages s⟩ = queueOf c st := by
          rw [queueOf, queueOf]
          show (dictLookup (dictDel st.messages s) c).getD [] = _
          rw [hlk]
        refine ⟨⟨?_, ?_, ?_⟩, ?_⟩
        · exact (List.mem_erase_of_ne (Ne.symm hsc)).mpr hin
        · show (dictLookup (dictDel st.messages s) c).isSome = true
          rw [hlk]
          exact hsome
        · rw [hqof]
          intro hq
          have hco := hne hq
          by_cases ho : s ∈ st.outputs
          · rw [if_pos ho]
            exact (List.mem_erase_of_ne (Ne.symm hsc)).mpr hco
          · rw [if_neg ho]
            exact hco
        · rw [hqof]
          rfl
      · by_cases hds : d = stopCommand
        · subst hds
          exact absurd h (fun h => handleRead_stop_not_ok L s st st' tr tr' h)
        · obtain ⟨q, hq, hst, htr⟩ := handleRead_data_ok L s d st st' tr tr' hd0 hds h
          rw [hst, htr]
          have hlk : dictLookup (dictSet st.messages s (q ++ [d])) c =
              dictLookup st.messages c :=
            dictLookup_set_other st.messages s c (q ++ [d]) hsc
          have hqof : queueOf c { st with
              outputs := if s ∈ st.outputs then st.outputs else st.outputs ++ [s],
              messages := dictSet st.messages s (q ++ [d]) } = queueOf c st := by
            rw [queueOf, queueOf]
            show (dictLookup (dictSet st.messages s (q ++ [d])) c).getD [] = _
            rw [hlk]
          refine ⟨⟨hin, ?_, ?_⟩, ?_⟩
          · show (dictLookup (dictSet st.messages s (q ++ [d])) c).isSome = true
            rw [hlk]
            exact hsome
          · rw [hqof]
            intro hqne
            have hco := hne hqne
            show c ∈ (if s ∈ st.outputs then st.outputs else st.outputs ++ [s])
            by_cases ho : s ∈ st.outputs
            · rw [if_pos ho]
              exact hco
            · rw [if_neg ho]
              exact List.mem_append_left _ hco
          · rw [hqof]

theorem connInv_handleWrite (c : Sock) (st st' : ServerState) (tr tr' : Trace)
    (w : Sock × Bool) (h : handleWrite st tr w = .ok st' tr')
    (hc : ConnInv c st) :
    ConnInv c st' ∧
    sentTo c tr' ++ queueOf c st' = sentTo c tr ++ queueOf c st := by
  obtain ⟨hin, hsome, hne⟩ := hc
  obtain ⟨s, b⟩ := w
  cases hq : dictLookup st.messages s with
  | none =>
    have hstep : handleWrite st tr (s, b) = .ok st tr := by
      simp [handleWrite, hq]
    rw [hstep] at h
    injection h with e1 e2
    rw [← e1, ← e2]
    exact ⟨⟨hin, hsome, hne⟩, rfl⟩
  | some q =>
    cases q with
    | nil =>
      by_cases ho : s ∈ st.outputs
      · have hstep : handleWrite st tr (s, b) =
            .ok { st with outputs := st.outputs.erase s } tr := by
          simp [handleWrite, hq, pyRemove, ho]
        rw [hstep] at h
        injection h with e1 e2
        rw [← e1, ← e2]
        refine ⟨⟨hin, hsome, ?_⟩, rfl⟩
        intro hqne
        show c ∈ st.outputs.erase s
        by_cases hsc : s = c
        · subst hsc
          have : queueOf s st = [] := by
            rw [queueOf, hq]
            rfl
          exact absurd this hqne
        · exact (List.mem_erase_of_ne (Ne.symm hsc)).mpr (hne hqne)
      · simp [handleWrite, hq, pyRemove, ho] at h
    | cons m rest =>
      cases b with
      | false => simp [handleWrite, hq] at h
      | true =>
        have hstep : handleWrite st tr (s, true) =
            .ok { st with messages := dictSet st.messages s rest }
               { tr with sent := tr.sent ++ [(s, m)] } := by
          simp [handleWrite, hq]
        rw [hstep] at h
        injection h with e1 e2
        rw [← e1, ← e2]
        by_cases hsc : s = c
        · subst hsc
          have hq1 : queueOf s st = m :: rest := by
            rw [queueOf, hq]
            rfl
          have hq2 : queueOf s { st with messages := dictSet st.messages s rest } =
              rest := by
            rw [queueOf]
            show (dictLookup (dictSet st.messages s rest) s).getD [] = rest
            rw [dictLookup_set_self]
            rfl
          have hsent : sentTo s { tr with sent := tr.sent ++ [(s, m)] } =
              sentTo s tr ++ [m] := by
            rw [sentTo, sentTo, sentOf_append, sentOf_single_self]
          refine ⟨⟨hin, ?_, ?_⟩, ?_⟩
          · show (dictLookup (dictSet st.messages s rest) s).isSome = true
            rw [dictLookup_set_self]
            rfl
          · intro _
            exact hne (by rw [hq1]; exact List.cons_ne_nil m rest)
          · rw [hsent, hq1, hq2, List.append_assoc]
            rfl
        · have hq2 : queueOf c { st with messages := dictSet st.messages s rest } =
              queueOf c st := by
            rw [queueOf, queueOf]
            show (dictLookup (dictSet st.messages s rest) c).getD [] = _
            rw [dictLookup_set_other st.messages s c rest hsc]
          have hsent : sentTo c { tr with sent := tr.sent ++ [(s, m)] } =
              sentTo c tr := by
            rw [sentTo, sentTo, sentOf_append, sentOf_single_other c s hsc,
              List.append_nil]
          have hlk : dictLookup (dictSet st.messages s rest) c =
              dictLookup st.messages c :=
            dictLookup_set_other st.messages s c rest hsc
          refine ⟨⟨hin, ?_, ?_⟩, ?_⟩
          · show (dictLookup (dictSet st.messages s rest) c).isSome = true
            rw [hlk]
            exact hsome
          · rw [hq2]
            exact hne
          · rw [hsent, hq2]

theorem connInv_handleError (c s : Sock) (st st' : ServerState) (tr tr' : Trace)
    (h : handleError st tr s = .ok st' tr') (hsc : s ≠ c)
    (hc : ConnInv c st) :
    ConnInv c st' ∧
    sentTo c tr' ++ queueOf c st' = sentTo c tr ++ queueOf c st := by
  obtain ⟨hin, hsome, hne⟩ := hc
  obtain ⟨hsin, hsm, hst, htr⟩ := handleError_ok s st st' tr tr' h
  rw [hst, htr]
  have hlk : dictLookup (dictDel st.messages s) c = dictLookup st.messages c :=
    dictLookup_del_other st.messages s c hsc
  have hqof : queueOf c ⟨st.inputs.erase s,
      if s ∈ st.outputs then st.outputs.erase s else st.outputs,
      dictDel st.messages s⟩ = queueOf c st := by
    rw [queueOf, queueOf]
    show (dictLookup (dictDel st.messages s) c).getD [] = _
    rw [hlk]
  refine ⟨⟨?_, ?_, ?_⟩, ?_⟩
  · exact (List.mem_erase_of_ne (Ne.symm hsc)).mpr hin
  · show (dictLookup (dictDel st.messages s) c).isSome = true
    rw [hlk]
    exact hsome
  · rw [hqof]
    intro hq
    have hco := hne hq
    by_cases ho : s ∈ st.outputs
    · rw [if_pos ho]
      exact (List.mem_erase_of_ne (Ne.symm hsc)).mpr hco
    · rw [if_neg ho]
      exact hco
  · rw [hqof]
    rfl

theorem connInv_readsPass (L c : Sock) (revs : List ReadEv) :
    ∀ (st st' : ServerState) (tr tr' : Trace),
      readsPass L st tr revs = .ok st' tr' →
      revs.all (benignEv c) = true →
      ConnInv c st →
      ConnInv c st' ∧
      sentTo c tr' ++ queueOf c st' =
        (sentTo c tr ++ queueOf c st) ++ revs.filterMap (recvEvChunk c) := by
  induction revs with
  | nil =>
    intro st st' tr tr' h _ hc
    have h' : PassOut.ok st tr = .ok st' tr' := h
    injection h' with e1 e2
    rw [← e1, ← e2]
    exact ⟨hc, by simp⟩
  | cons e es ih =>
    intro st st' tr tr' h hb hc
    rw [List.all_cons, Bool.and_eq_true] at hb
    cases hh : handleRead L st tr e with
    | ok st1 tr1 =>
      rw [readsPass, hh] at h
      have h' : readsPass L st1 tr1 es = .ok st' tr' := h
      obtain ⟨hc1, hl1⟩ := connInv_handleRead L c st st1 tr tr1 e hh hb.1 hc
      obtain ⟨hc2, hl2⟩ := ih st1 st' tr1 tr' h' hb.2 hc1
      refine ⟨hc2, ?_⟩
      rw [hl2, hl1]
      have : (recvEvChunk c e).toList ++ es.filterMap (recvEvChunk c) =
          (e :: es).filterMap (recvEvChunk c) := by
        cases hre : recvEvChunk c e with
        | none => simp [List.filterMap_cons, hre]
        | some d => simp [List.filterMap_cons, hre]
      rw [← this, List.append_assoc]
    | stop st1 tr1 =>
      rw [readsPass, hh] at h
      have h' : PassOut.stop st1 tr1 = .ok st' tr' := h
      cases h'
    | exc =>
      rw [readsPass, hh] at h
      have h' : PassOut.exc = .ok st' tr' := h
      cases h'

theorem connInv_writesPass (c : Sock) (wevs : List (Sock × Bool)) :
    ∀ (st st' : ServerState) (tr tr' : Trace),
      writesPass st tr wevs = .ok st' tr' →
      ConnInv c st →
      ConnInv c st' ∧
      sentTo c tr' ++ queueOf c st' = sentTo c tr ++ queueOf c st := by
  induction wevs with
  | nil =>
    intro st st' tr tr' h hc
    have h' : PassOut.ok st tr = .ok st' tr' := h
    injection h' with e1 e2
    rw [← e1, ← e2]
    exact ⟨hc, rfl⟩
  | cons w ws ih =>
    intro st st' tr tr' h hc
    cases hh : handleWrite st tr w with
    | ok st1 tr1 =>
      rw [writesPass, hh] at h
      have h' : writesPass st1 tr1 ws = .ok st' tr' := h
      obtain ⟨hc1, hl1⟩ := connInv_handleWrite c st st1 tr tr1 w hh hc
      obtain ⟨hc2, hl2⟩ := ih st1 st' tr1 tr' h' hc1
      exact ⟨hc2, hl2.trans hl1⟩
    | stop st1 tr1 =>
      rw [writesPass, hh] at h
      have h' : PassOut.stop st1 tr1 = .ok st' tr' := h
      cases h'
    | exc =>
      rw [writesPass, hh] at h
      have h' : PassOut.exc = .ok st' tr' := h
      cases h'

theorem connInv_errorsPass (c : Sock) (eevs : List Sock) :
    ∀ (st st' : ServerState) (tr tr' : Trace),
      errorsPass st tr eevs = .ok st' tr' →
      c ∉ eevs →
      ConnInv c st →
      ConnInv c st' ∧
      sentTo c tr' ++ queueOf c st' = sentTo c tr ++ queueOf c st := by
  induction eevs with
  | nil =>
    intro st st' tr tr' h _ hc
    have h' : PassOut.ok st tr = .ok st' tr' := h
    injection h' with e1 e2
    rw [← e1, ← e2]
    exact ⟨hc, rfl⟩
  | cons s ss ih =>
    intro st st' tr tr' h hcn hc
    have hsc : s ≠ c := fun he => hcn (he ▸ List.mem_cons_self s ss)
    have hcs : c ∉ ss := fun hm => hcn (List.mem_cons_of_mem s hm)
    cases hh : handleError st tr s with
    | ok st1 tr1 =>
      rw [errorsPass, hh] at h
      have h' : errorsPass st1 tr1 ss = .ok st' tr' := h
      obtain ⟨hc1, hl1⟩ := connInv_handleError c s st st1 tr tr1 hh hsc hc
      obtain ⟨hc2, hl2⟩ := ih st1 st' tr1 tr' h' hcs hc1
      exact ⟨hc2, hl2.trans hl1⟩
    | stop st1 tr1 =>
      rw [errorsPass, hh] at h
      have h' : PassOut.stop st1 tr1 = .ok st' tr' := h
      cases h'
    | exc =>
      rw [errorsPass, hh] at h
      have h' : PassOut.exc = .ok st' tr' := h
      cases h'

theorem connInv_tick (L c : Sock) (st st' : ServerState) (tr tr' : Trace)
    (t : TickEnv) (h : tick L st tr t = .ok st' tr')
    (hb : benignTick c t = true) (hc : ConnInv c st) :
    ConnInv c st' ∧
    sentTo c tr' ++ queueOf c st' =
      (sentTo c tr ++ queueOf c st) ++ recvOnTick c t := by
  cases t with
  | interrupt => cases hb
  | pollErr n =>
    have hn : n = EAGAIN ∨ n = EINTR := by
      have hb' : (decide (n = EAGAIN) || decide (n = EINTR)) = true := hb
      rcases Bool.or_eq_true _ _ ▸ hb' with h0 | h0
      · exact Or.inl (of_decide_eq_true h0)
      · exact Or.inr (of_decide_eq_true h0)
    rw [tick, if_pos hn] at h
    injection h with e1 e2
    rw [← e1, ← e2]
    exact ⟨hc, by rw [show recvOnTick c (TickEnv.pollErr n) = [] from rfl, List.append_nil]⟩
  | poll revs wevs eevs =>
    have hb' : (revs.all (benignEv c) && decide (c ∉ eevs)) = true := hb
    rw [Bool.and_eq_true] at hb'
    rw [tick] at h
    cases hr : readsPass L st tr revs with
    | ok st1 tr1 =>
      rw [hr] at h
      have h1 : (writesPass st1 tr1 wevs).andThen
          (fun st2 tr2 => errorsPass st2 tr2 eevs) = .ok st' tr' := h
      cases hw : writesPass st1 tr1 wevs with
      | ok st2 tr2 =>
        rw [hw] at h1
        have h2 : errorsPass st2 tr2 eevs = .ok st' tr' := h1
        obtain ⟨hc1, hl1⟩ := connInv_readsPass L c revs st st1 tr tr1 hr hb'.1 hc
        obtain ⟨hc2, hl2⟩ := connInv_writesPass c wevs st1 st2 tr1 tr2 hw hc1
        obtain ⟨hc3, hl3⟩ :=
          connInv_errorsPass c eevs st2 st' tr2 tr' h2 (of_decide_eq_true hb'.2) hc2
        exact ⟨hc3, (hl3.trans hl2).trans hl1⟩
      | stop st2 tr2 =>
        rw [hw] at h1
        have h2 : PassOut.stop st2 tr2 = .ok st' tr' := h1
        cases h2
      | exc =>
        rw [hw] at h1
        have h2 : PassOut.exc = .ok st' tr' := h1
        cases h2
    | stop st1 tr1 =>
      rw [hr] at h
      have h1 : PassOut.stop st1 tr1 = .ok st' tr' := h
      cases h1
    | exc =>
      rw [hr] at h
      have h1 : PassOut.exc = .ok st' tr' := h
      cases h1

theorem connInv_run (L c : Sock) (sok : Sock → Nat → Bool) (ticks : List TickEnv) :
    ∀ (st st1 : ServerState) (tr tr1 : Trace),
      runTicks L sok st tr ticks = .running st1 tr1 →
      ticks.all (benignTick c) = true →
      ConnInv c st →
      ConnInv c st1 ∧
      sentTo c tr1 ++ queueOf c st1 =
        (sentTo c tr ++ queueOf c st) ++ recvOn c ticks := by
  induction ticks with
  | nil =>
    intro st st1 tr tr1 h _ hc
    have h' : RunResult.running st tr = .running st1 tr1 := h
    injection h' with e1 e2
    rw [← e1, ← e2]
    exact ⟨hc, by rw [recvOn, List.append_nil]⟩
  | cons t ts ih =>
    intro st st1 tr tr1 h hb hc
    rw [List.all_cons, Bool.and_eq_true] at hb
    cases hh : tick L st tr t with
    | ok st' tr' =>
      rw [runTicks, hh] at h
      have h' : runTicks L sok st' tr' ts = .running st1 tr1 := h
      obtain ⟨hc1, hl1⟩ := connInv_tick L c st st' tr tr' t hh hb.1 hc
      obtain ⟨hc2, hl2⟩ := ih st' st1 tr' tr1 h' hb.2 hc1
      refine ⟨hc2, ?_⟩
      rw [hl2, hl1, recvOn, List.append_assoc]
    | stop st' tr' =>
      rw [runTicks, hh] at h
      have h' : RunResult.done true
          (drainAll L sok st'.inputs st' tr') = .running st1 tr1 := h
      cases h'
    | exc =>
      rw [runTicks, hh] at h
      have h' : RunResult.done false tr = .running st1 tr1 := h
      cases h'

theorem flush_sends_queue (L c : Sock) (sok : Sock → Nat → Bool) :
    ∀ (q : List Chunk) (st : ServerState) (tr : Trace),
      dictLookup st.messages c = some q →
      (q ≠ [] → c ∈ st.outputs) →
      ∃ st2 tr2,
        runTicks L sok st tr (flushTicks c q.length) = .running st2 tr2 ∧
        sentTo c tr2 = sentTo c tr ++ q ∧
        dictLookup st2.messages c = some [] := by
  intro q
  induction q with
  | nil =>
    intro st tr hq _
    exact ⟨st, tr, rfl, by rw [List.append_nil], hq⟩
  | cons m rest ih =>
    intro st tr hq hne
    have ho : c ∈ st.outputs := hne (List.cons_ne_nil m rest)
    have hw : handleWrite st tr (c, true) =
        .ok { st with messages := dictSet st.messages c rest }
           { tr with sent := tr.sent ++ [(c, m)] } := by
      simp [handleWrite, hq]
    have ht : tick L st tr (.poll [] [(c, true)] []) =
        .ok { st with messages := dictSet st.messages c rest }
           { tr with sent := tr.sent ++ [(c, m)] } := by
      simp [tick, readsPass, writesPass, errorsPass, PassOut.andThen, hw]
    obtain ⟨st2, tr2, hrun, hsent, hq2⟩ := ih
      { st with messages := dictSet st.messages c rest }
      { tr with sent := tr.sent ++ [(c, m)] }
      (dictLookup_set_self st.messages c rest)
      (fun _ => ho)
    refine ⟨st2, tr2, ?_, ?_, hq2⟩
    · show runTicks L sok st tr
        (.poll [] [(c, true)] [] :: flushTicks c rest.length) = .running st2 tr2
      rw [runTicks, ht]
      exact hrun
    · rw [hsent]
      have : sentTo c { tr with sent := tr.sent ++ [(c, m)] } =
          sentTo c tr ++ [m] := by
        rw [sentTo, sentTo, sentOf_append, sentOf_single_self]
      rw [this, List.append_assoc]
      rfl

/-- C1: FIFO echo, eventually.  Start from any live connection `c` (for
instance freshly accepted: empty queue, nothing sent yet) and run any
schedule of operating-system events that is benign for `c` — every
payload received on `c` is non-empty and differs from the literal `stop`,
no error event fires on `c`, and `c`'s descriptor is not recycled — after
which the loop is still running.  Then, after the level-triggered
writable events that the OS keeps reporting while `c`'s queue is
non-empty (`flushTicks`), everything `c` sent has been sent back on `c`:
the chunks passed to `send` on `c` are exactly the chunks previously sent
plus the pre-queued chunks plus every payload received on `c`, in exactly
the order received (each readable event appended its chunk to `c`'s
queue, and each writable event sent the oldest queued chunk). -/
theorem echo_fifo_eventual (L c : Sock) (sok : Sock → Nat → Bool)
    (ticks : List TickEnv) (st st1 : ServerState) (tr tr1 : Trace)
    (hb : ticks.all (benignTick c) = true)
    (hc : ConnInv c st)
    (hrun : runTicks L sok st tr ticks = .running st1 tr1) :
    ∃ st2 tr2,
      runTicks L sok st1 tr1 (flushTicks c (queueOf c st1).length) =
        .running st2 tr2 ∧
      sentTo c tr2 = (sentTo c tr ++ queueOf c st) ++ recvOn c ticks ∧
      queueOf c st2 = [] := by
  obtain ⟨hc1, hledger⟩ := connInv_run L c sok ticks st st1 tr tr1 hrun hb hc
  obtain ⟨hin, hsome, hne⟩ := hc1
  cases hq1 : dictLookup st1.messages c with
  | none =>
    rw [hq1] at hsome
    cases hsome
  | some q1 =>
    have hqof : queueOf c st1 = q1 := by
      rw [queueOf, hq1]
      rfl
    obtain ⟨st2, tr2, hrun2, hsent2, hq2⟩ :=
      flush_sends_queue L c sok q1 st1 tr1 hq1 (fun hq => hne (by rw [hqof]; exact hq))
    refine ⟨st2, tr2, ?_, ?_, ?_⟩
    · rw [hqof]
      exact hrun2
    · rw [hsent2, ← hledger, hqof]
    · rw [queueOf, hq2]
      rfl

theorem echo_fifo_eventual_witness :
    ∃ st2 tr2,
      runTicks 0 (fun _ _ => true) ⟨[0, 1], [1], [(1, ["he", "llo"])]⟩
          ⟨[1], [1], [], []⟩
          (flushTicks 1 (queueOf 1 ⟨[0, 1], [1], [(1, ["he", "llo"])]⟩).length) =
        .running st2 tr2 ∧
      sentTo 1 tr2 =
        (sentTo 1 (Trace.mk [1] [1] [] []) ++ queueOf 1 ⟨[0, 1], [], [(1, [])]⟩) ++
          recvOn 1 [.poll [.dat 1 "he"] [] [], .poll [.dat 1 "llo"] [] []] ∧
      queueOf 1 st2 = [] :=
  echo_fifo_eventual 0 1 (fun _ _ => true)
    [.poll [.dat 1 "he"] [] [], .poll [.dat 1 "llo"] [] []]
    ⟨[0, 1], [], [(1, [])]⟩ ⟨[0, 1], [1], [(1, ["he", "llo"])]⟩
    ⟨[1], [1], [], []⟩ ⟨[1], [1], [], []⟩
    (by decide)
    ⟨by decide, by decide, fun h => absurd rfl h⟩
    (by decide)
